import Mathlib

set_option linter.unusedVariables false
set_option maxRecDepth 100000

/-! Shallow embedding of the relevance-scoring core of the ispt_heat_scraper
repository: the fuzzy matchers of `geotherm_test/utils.py`, the
`DecarbonizationScorer` of `geotherm_test/analysis/scorer.py`, and the
relevance classification of `geotherm_test/analysis/case_study.py`.

Python's `difflib.SequenceMatcher` with its default arguments (no junk
function, `autojunk=True`) is modelled faithfully: characters occurring more
than `len(b) // 100 + 1` times in a second sequence of at least 200
characters are "popular" and excluded from the block-finding scan, the scan
returns the largest clean block (earliest in the first string, then earliest
in the second, on ties), the two extension loops then grow that block over
adjacent equal characters (the junk set proper is empty, so the two junk
extension loops never fire), and the total matched-character count recurses
on the pieces to the left and to the right of the extended block; the ratio
is `2*M/(len(a)+len(b))`, and `1` when both strings are empty. Python floats
for thresholds and ratios are idealised as exact rationals. A Python
function that can raise is modelled with `Option` (`none` = raises).
-/

/-- Length of the common prefix run of two character lists (the run of equal
characters a matching block consists of). -/
def commonRun : List Char → List Char → Nat
  | x :: xs, y :: ys => if x = y then commonRun xs ys + 1 else 0
  | _, _ => 0

/-- All index pairs `(i, j)` with `i < la`, `j < lb`, in lexicographic order
(the scan order of `difflib`'s `find_longest_match`). -/
def allPairs (la lb : Nat) : List (Nat × Nat) :=
  (List.range la).flatMap (fun i => (List.range lb).map (fun j => (i, j)))

/-- One step of the argmax scan: keep the candidate pair only when it
strictly improves the best block size found so far. -/
def argmaxStep (f : Nat → Nat → Nat) (best : Nat × Nat × Nat) (p : Nat × Nat) :
    Nat × Nat × Nat :=
  if best.2.2 < f p.1 p.2 then (p.1, p.2, f p.1 p.2) else best

/-- Scan a list of index pairs and keep the first pair that strictly improves
the current best value of `f`: this returns the lexicographically first argmax
of `f`, exactly `difflib`'s tie-breaking rule (earliest block in `a`, then
earliest in `b`, among blocks of maximal size). -/
def argmaxRun (f : Nat → Nat → Nat) (pairs : List (Nat × Nat)) : Nat × Nat × Nat :=
  pairs.foldl (argmaxStep f) (0, 0, 0)

/-- Model of `SequenceMatcher.find_longest_match` over the whole strings:
the longest matching block `(i, j, size)`, earliest in `a` then in `b` on
ties, and `(0, 0, 0)` when there is no match at all. -/
def findLongestMatch (a b : List Char) : Nat × Nat × Nat :=
  argmaxRun (fun i j => commonRun (a.drop i) (b.drop j)) (allPairs a.length b.length)

theorem commonRun_le_left (a b : List Char) : commonRun a b ≤ a.length := by
  induction a generalizing b with
  | nil => cases b <;> simp [commonRun]
  | cons x xs ih =>
    cases b with
    | nil => simp [commonRun]
    | cons y ys =>
      simp only [commonRun]
      split
      · simpa using ih ys
      · simp

theorem commonRun_le_right (a b : List Char) : commonRun a b ≤ b.length := by
  induction a generalizing b with
  | nil => cases b <;> simp [commonRun]
  | cons x xs ih =>
    cases b with
    | nil => simp [commonRun]
    | cons y ys =>
      simp only [commonRun, List.length_cons]
      split
      · simpa using ih ys
      · simp

theorem commonRun_nil_left (b : List Char) : commonRun [] b = 0 := by
  cases b <;> rfl

theorem commonRun_nil_right (a : List Char) : commonRun a [] = 0 := by
  cases a <;> rfl

theorem argmaxRun_cases (f : Nat → Nat → Nat) (pairs : List (Nat × Nat)) :
    argmaxRun f pairs = (0, 0, 0) ∨
      ∃ p ∈ pairs, argmaxRun f pairs = (p.1, p.2, f p.1 p.2) := by
  unfold argmaxRun
  induction pairs using List.reverseRecOn with
  | nil => left; rfl
  | append_singleton l p ih =>
    rw [List.foldl_append, List.foldl_cons, List.foldl_nil]
    rcases ih with h | ⟨q, hq, h⟩ <;> rw [h] <;> unfold argmaxStep
    · by_cases hlt : (0 : Nat) < f p.1 p.2
      · right; exact ⟨p, by simp, by simp [hlt]⟩
      · left; simp [hlt]
    · by_cases hlt : f q.1 q.2 < f p.1 p.2
      · right; exact ⟨p, by simp, by simp [hlt]⟩
      · right; exact ⟨q, by simp [List.mem_append.mpr (Or.inl hq)], by simp [hlt]⟩

theorem mem_allPairs {la lb i j : Nat} :
    (i, j) ∈ allPairs la lb ↔ i < la ∧ j < lb := by
  simp [allPairs]

theorem findLongestMatch_bounds (a b : List Char)
    (h : (findLongestMatch a b).2.2 ≠ 0) :
    (findLongestMatch a b).1 + (findLongestMatch a b).2.2 ≤ a.length ∧
      (findLongestMatch a b).2.1 + (findLongestMatch a b).2.2 ≤ b.length := by
  rcases argmaxRun_cases (fun i j => commonRun (a.drop i) (b.drop j))
      (allPairs a.length b.length) with hc | ⟨p, hp, hc⟩
  · exact absurd (by rw [findLongestMatch, hc]) h
  · have hmem := mem_allPairs.mp (by rwa [show p = (p.1, p.2) from rfl] at hp)
    have h1 : commonRun (a.drop p.1) (b.drop p.2) ≤ a.length - p.1 := by
      simpa using commonRun_le_left (a.drop p.1) (b.drop p.2)
    have h2 : commonRun (a.drop p.1) (b.drop p.2) ≤ b.length - p.2 := by
      simpa using commonRun_le_right (a.drop p.1) (b.drop p.2)
    rw [findLongestMatch, hc]
    dsimp only
    omega

/-- Model of `SequenceMatcher.get_matching_blocks` summed: total number of
matched characters `M`, obtained by taking the longest matching block and
recursing on the left and right remainders (the block order does not matter
for the sum). -/
def matchTotal (a b : List Char) : Nat :=
  if h : (findLongestMatch a b).2.2 = 0 then 0
  else
    matchTotal (a.take (findLongestMatch a b).1) (b.take (findLongestMatch a b).2.1) +
      (findLongestMatch a b).2.2 +
      matchTotal (a.drop ((findLongestMatch a b).1 + (findLongestMatch a b).2.2))
        (b.drop ((findLongestMatch a b).2.1 + (findLongestMatch a b).2.2))
termination_by a.length
decreasing_by
  · have hb := findLongestMatch_bounds a b h
    simp only [List.length_take]
    omega
  · have hb := findLongestMatch_bounds a b h
    simp only [List.length_drop]
    omega

/-- Autojunk popularity test of `SequenceMatcher.__chain_b` with the default
`autojunk=True` and no junk function: once the second sequence has at least
200 elements, every element occurring more than `len(b) // 100 + 1` times is
dropped from the position index `b2j`, so the block-finding scan can no
longer match it (the extension loops still can). -/
def popularChar (b : List Char) (c : Char) : Bool :=
  decide (200 ≤ b.length) && decide (b.length / 100 + 1 < b.count c)

/-- Length of the common prefix run that the junk-aware block scan of
`find_longest_match` can produce: the characters must be equal and the
character on the second-sequence side must not be popular. -/
def cleanRun (P : Char → Bool) : List Char → List Char → Nat
  | x :: xs, y :: ys => if x = y ∧ P y = false then cleanRun P xs ys + 1 else 0
  | _, _ => 0

/-- The scan part of `SequenceMatcher.find_longest_match`: the largest block
whose second-sequence characters are all unpopular, earliest in `a`, then in
`b` on ties, and `(0, 0, 0)` when there is no such block. -/
def findLongestMatchJ (P : Char → Bool) (a b : List Char) : Nat × Nat × Nat :=
  argmaxRun (fun i j => cleanRun P (a.drop i) (b.drop j)) (allPairs a.length b.length)

theorem cleanRun_le_left (P : Char → Bool) (a b : List Char) :
    cleanRun P a b ≤ a.length := by
  induction a generalizing b with
  | nil => cases b <;> simp [cleanRun]
  | cons x xs ih =>
    cases b with
    | nil => simp [cleanRun]
    | cons y ys =>
      simp only [cleanRun]
      split
      · simpa using ih ys
      · simp

theorem cleanRun_le_right (P : Char → Bool) (a b : List Char) :
    cleanRun P a b ≤ b.length := by
  induction a generalizing b with
  | nil => cases b <;> simp [cleanRun]
  | cons x xs ih =>
    cases b with
    | nil => simp [cleanRun]
    | cons y ys =>
      simp only [cleanRun, List.length_cons]
      split
      · simpa using ih ys
      · simp

theorem findLongestMatchJ_bounds (P : Char → Bool) (a b : List Char) :
    (findLongestMatchJ P a b).1 + (findLongestMatchJ P a b).2.2 ≤ a.length ∧
      (findLongestMatchJ P a b).2.1 + (findLongestMatchJ P a b).2.2 ≤ b.length := by
  rcases argmaxRun_cases (fun i j => cleanRun P (a.drop i) (b.drop j))
      (allPairs a.length b.length) with hc | ⟨p, hp, hc⟩
  · rw [findLongestMatchJ, hc]
    simp
  · have hmem := mem_allPairs.mp (by rwa [show p = (p.1, p.2) from rfl] at hp)
    have h1 : cleanRun P (a.drop p.1) (b.drop p.2) ≤ a.length - p.1 := by
      simpa using cleanRun_le_left P (a.drop p.1) (b.drop p.2)
    have h2 : cleanRun P (a.drop p.1) (b.drop p.2) ≤ b.length - p.2 := by
      simpa using cleanRun_le_right P (a.drop p.1) (b.drop p.2)
    rw [findLongestMatchJ, hc]
    dsimp only
    omega

/-- The two non-junk extension loops of `find_longest_match` applied to the
scanned block: with an empty junk set they extend the block left and then
right over every pair of adjacent equal characters (popular ones included),
and the two junk extension loops after them never fire. -/
def extendedBlock (P : Char → Bool) (a b : List Char) : Nat × Nat × Nat :=
  ((findLongestMatchJ P a b).1 -
      commonRun (a.take (findLongestMatchJ P a b).1).reverse
        (b.take (findLongestMatchJ P a b).2.1).reverse,
    (findLongestMatchJ P a b).2.1 -
      commonRun (a.take (findLongestMatchJ P a b).1).reverse
        (b.take (findLongestMatchJ P a b).2.1).reverse,
    (findLongestMatchJ P a b).2.2 +
      commonRun (a.take (findLongestMatchJ P a b).1).reverse
        (b.take (findLongestMatchJ P a b).2.1).reverse +
      commonRun (a.drop ((findLongestMatchJ P a b).1 + (findLongestMatchJ P a b).2.2))
        (b.drop ((findLongestMatchJ P a b).2.1 + (findLongestMatchJ P a b).2.2)))

theorem extendedBlock_bounds (P : Char → Bool) (a b : List Char) :
    (extendedBlock P a b).1 + (extendedBlock P a b).2.2 ≤ a.length ∧
      (extendedBlock P a b).2.1 + (extendedBlock P a b).2.2 ≤ b.length := by
  have hm := findLongestMatchJ_bounds P a b
  have hl1 : commonRun (a.take (findLongestMatchJ P a b).1).reverse
      (b.take (findLongestMatchJ P a b).2.1).reverse ≤ (findLongestMatchJ P a b).1 := by
    refine le_trans (commonRun_le_left _ _) ?_
    simp
  have hl2 : commonRun (a.take (findLongestMatchJ P a b).1).reverse
      (b.take (findLongestMatchJ P a b).2.1).reverse ≤ (findLongestMatchJ P a b).2.1 := by
    refine le_trans (commonRun_le_right _ _) ?_
    simp
  have hr1 : commonRun
      (a.drop ((findLongestMatchJ P a b).1 + (findLongestMatchJ P a b).2.2))
      (b.drop ((findLongestMatchJ P a b).2.1 + (findLongestMatchJ P a b).2.2)) ≤
      a.length - ((findLongestMatchJ P a b).1 + (findLongestMatchJ P a b).2.2) := by
    refine le_trans (commonRun_le_left _ _) ?_
    simp
  have hr2 : commonRun
      (a.drop ((findLongestMatchJ P a b).1 + (findLongestMatchJ P a b).2.2))
      (b.drop ((findLongestMatchJ P a b).2.1 + (findLongestMatchJ P a b).2.2)) ≤
      b.length - ((findLongestMatchJ P a b).2.1 + (findLongestMatchJ P a b).2.2) := by
    refine le_trans (commonRun_le_right _ _) ?_
    simp
  unfold extendedBlock
  dsimp only
  omega

/-- Model of `SequenceMatcher.get_matching_blocks` summed, junk-aware: total
number of matched characters `M`, obtained by taking the extended block of
the junk-aware scan and recursing on the left and right remainders (the
popularity predicate is fixed once from the whole second sequence; it tests
characters, so it passes to the slices unchanged). -/
def matchTotalJ (P : Char → Bool) (a b : List Char) : Nat :=
  if h : (extendedBlock P a b).2.2 = 0 then 0
  else
    matchTotalJ P (a.take (extendedBlock P a b).1) (b.take (extendedBlock P a b).2.1) +
      (extendedBlock P a b).2.2 +
      matchTotalJ P (a.drop ((extendedBlock P a b).1 + (extendedBlock P a b).2.2))
        (b.drop ((extendedBlock P a b).2.1 + (extendedBlock P a b).2.2))
termination_by a.length
decreasing_by
  · have hb := extendedBlock_bounds P a b
    simp only [List.length_take]
    omega
  · have hb := extendedBlock_bounds P a b
    simp only [List.length_drop]
    omega

/-- Model of `SequenceMatcher(None, a, b).ratio()` with the default
`autojunk=True`: `2*M/(len(a)+len(b))` with the popularity predicate
computed from `b` (the second argument), and `1.0` when both strings are
empty, as an exact rational. -/
def ratio (a b : String) : ℚ :=
  if a.length + b.length = 0 then 1
  else 2 * (matchTotalJ (popularChar b.toList) a.toList b.toList : ℚ) /
    ((a.length : ℚ) + (b.length : ℚ))

/-- Model of Python `str.lower()` (ASCII fragment). -/
def lowerStr (s : String) : String :=
  ⟨s.toList.map Char.toLower⟩

/-- Preprocessing of `fuzzy_match_keyword` in `geotherm_test/utils.py`:
`re.sub(r'[^\w\s]', '', s).lower()` — drop every character that is neither a
word character nor whitespace, then lowercase (ASCII fragment). -/
def preprocess (s : String) : String :=
  lowerStr ⟨s.toList.filter (fun c => c.isAlphanum || c = '_' || c.isWhitespace)⟩

/-- Helper for `splitWs`: accumulate the current word (reversed) while
scanning the character list. -/
def wordsAux : List Char → List Char → List (List Char)
  | [], acc => if acc.isEmpty then [] else [acc.reverse]
  | c :: cs, acc =>
    if c.isWhitespace then
      if acc.isEmpty then wordsAux cs [] else acc.reverse :: wordsAux cs []
    else wordsAux cs (c :: acc)

/-- Model of Python `str.split()` with no argument: split on runs of
whitespace, discarding empty pieces. -/
def splitWs (s : String) : List String :=
  (wordsAux s.toList []).map (fun l => ⟨l⟩)

/-- Single-keyword scan of `fuzzy_match_keyword` (`num_keywords == 1` branch):
walk the text words in order; on the first word whose similarity with the
(preprocessed) keyword string reaches the threshold, return 1; if the scan
ends, return 0 (the Python code returns `False`, which counts as 0). -/
def singleScan (kw : String) (θ : ℚ) : List String → ℤ
  | [] => 0
  | w :: ws => if θ ≤ ratio kw w then 1 else singleScan kw θ ws

/-- Average per-position similarity between the keyword words and a window of
text words (`avg_ratio` in `fuzzy_match_keyword`); dividing by a zero word
count is handled by the caller, which models Python's `ZeroDivisionError`. -/
def windowAvg (kws chunk : List String) : ℚ :=
  (List.zipWith ratio kws chunk).sum / (kws.length : ℚ)

/-- Multi-keyword window scan of `fuzzy_match_keyword` (`else` branch): for
each window start index, average the per-position similarities and return 1
on the first window reaching the threshold, 0 when the windows are exhausted.
When the keyword has no words, the first iteration divides by zero, which the
model reports as `none` (Python raises `ZeroDivisionError`). -/
def multiScanAux (kws tw : List String) (θ : ℚ) : List Nat → Option ℤ
  | [] => some 0
  | i :: is =>
    if kws.length = 0 then none
    else if θ ≤ windowAvg kws ((tw.drop i).take kws.length) then some 1
    else multiScanAux kws tw θ is

/-- Model of `fuzzy_match_keyword(text, keyword, threshold)` from
`geotherm_test/utils.py`: preprocess both inputs, split into words, then
either the single-keyword scan or the sliding-window scan, whose window
starts are `range(len(text_words) - num_keywords + 1)` (empty when the
keyword has more words than the text; of size `len(text_words) + 1` when the
keyword has no words, so the division by zero is always reached then).
`none` models a raised exception; `some n` the returned count. -/
def fuzzy_match_keyword (text keyword : String) (θ : ℚ) : Option ℤ :=
  if (splitWs (preprocess keyword)).length = 1 then
    some (singleScan (preprocess keyword) θ (splitWs (preprocess text)))
  else
    multiScanAux (splitWs (preprocess keyword)) (splitWs (preprocess text)) θ
      (List.range
        ((splitWs (preprocess text)).length + 1 - (splitWs (preprocess keyword)).length))

/-- Model of `fuzzy_match_two_sets_keywords` (the second definition in
`geotherm_test/utils.py`, which shadows the first): lowercase both keyword
collections, then return `true` on the first cross pair whose similarity
reaches the threshold, `false` after exhausting the cross product. -/
def fuzzy_match_two_sets_keywords (keywords_set_1 keywords_set_2 : List String) (θ : ℚ) :
    Bool :=
  let t1 := keywords_set_1.map lowerStr
  let t2 := keywords_set_2.map lowerStr
  t1.any (fun k1 => t2.any (fun k2 => θ ≤ ratio k1 k2))

/-- Per-phrase part of `chunk_keywords`: every word of the phrase, and after
each non-final word also the pair `word + " " + next_word`, in scan order. -/
def chunkWords : List String → List String
  | [] => []
  | [w] => [w]
  | w1 :: w2 :: ws => w1 :: (w1 ++ " " ++ w2) :: chunkWords (w2 :: ws)

/-- Model of `chunk_keywords(keywords)` from `geotherm_test/utils.py`: for
each input phrase, split on whitespace and emit all 1-word and adjacent
2-word chunks. The Python function collects them in a `set`; the model keeps
a list, and set-level claims are stated through `List.toFinset` or
membership. -/
def chunk_keywords (keywords : List String) : List String :=
  keywords.flatMap (fun keyword => chunkWords (splitWs keyword))

/-- One value of the loaded `target_keywords` JSON mapping: a group entry,
whose `synonyms` and `score` keys may each be absent (the scorer reads them
with `.get('synonyms', [])` and `.get("score", 0)`). -/
structure GroupEntry where
  synonyms : Option (List String)
  score : Option ℤ
deriving DecidableEq

/-- State of a `DecarbonizationScorer` instance after construction: the
loaded taxonomy (an insertion-ordered mapping from group name to entry) and
the two mutable accumulators, which `__init__` sets to 0. -/
structure DecarbonizationScorer where
  target_keywords : List (String × GroupEntry)
  text_score : ℤ
  ai_keywords_score : ℤ
deriving DecidableEq

/-- One synonym step of `DecarbonizationScorer._text_score`: run
`fuzzy_match_keyword(text, keyword)` at the default threshold 0.8 and, when
the walrus-tested result is truthy (nonzero), add `number_of_hits *
group_score` to the accumulator. `none` propagates a raised exception. -/
def textScoreSyn (text : String) (w : ℤ) (acc : ℤ) (kw : String) : Option ℤ :=
  (fuzzy_match_keyword text kw (4/5)).map (fun n => if n ≠ 0 then acc + n * w else acc)

/-- One group step of `DecarbonizationScorer._text_score`: fold the synonym
step over `entry.get('synonyms', [])` with weight `entry.get("score", 0)`. -/
def textScoreGroup (text : String) (acc : ℤ) (e : GroupEntry) : Option ℤ :=
  (e.synonyms.getD []).foldlM (textScoreSyn text (e.score.getD 0)) acc

/-- Model of `DecarbonizationScorer._text_score(text)`: iterate over the
taxonomy groups in order, accumulating into `self.text_score`; `none` models
an exception raised by `fuzzy_match_keyword` on some synonym. -/
def textScoreRun (st : DecarbonizationScorer) (text : String) : Option DecarbonizationScorer :=
  (st.target_keywords.foldlM (fun acc g => textScoreGroup text acc g.2) st.text_score).map
    (fun ts => { st with text_score := ts })

/-- One group step of `DecarbonizationScorer._ai_keywords_score`: if the
chunked AI keywords fuzzily intersect `entry.get('synonyms', [])` at the
default threshold 0.85, add `group_score * weight` once for the group. -/
def aiScoreGroup (kws : List String) (weight : ℤ) (acc : ℤ) (e : GroupEntry) : ℤ :=
  if fuzzy_match_two_sets_keywords (chunk_keywords kws) (e.synonyms.getD []) (17/20)
  then acc + e.score.getD 0 * weight else acc

/-- Model of `DecarbonizationScorer._ai_keywords_score(ai_gen_keywords,
weight)`: fold the group step over the taxonomy, accumulating into
`self.ai_keywords_score`; no step can raise. -/
def aiScoreRun (st : DecarbonizationScorer) (kws : List String) (weight : ℤ) :
    DecarbonizationScorer :=
  let ai :=
    st.target_keywords.foldl (fun acc g => aiScoreGroup kws weight acc g.2)
      st.ai_keywords_score
  { st with ai_keywords_score := ai }

/-- Model of `DecarbonizationScorer.__call__(text, ai_gen_keywords)`: always
run `_text_score`; run `_ai_keywords_score` (with its default weight 2) only
when `ai_gen_keywords` is truthy, i.e. a non-`None`, non-empty list; return
the accumulated `(text_score, ai_keywords_score)`. -/
def scorerCall (st : DecarbonizationScorer) (text : String) (kws : Option (List String)) :
    Option (DecarbonizationScorer × ℤ × ℤ) :=
  (textScoreRun st text).map (fun st1 =>
    let st2 := match kws with
      | some l => if l.isEmpty then st1 else aiScoreRun st1 l 2
      | none => st1
    (st2, st2.text_score, st2.ai_keywords_score))

/-- Model of `CaseStudy._determine_relevance` (case_study.py lines 136-146):
take the `max` of the scorer's returned pair, clamp with
`max(0, min(100, score))`, and classify with the 50/25 thresholds. The
`CaseStudy` field `self.keywords` is always a list (possibly empty), so the
scorer is called with `some keywords`. -/
def determine_relevance (st : DecarbonizationScorer) (text : String) (keywords : List String) :
    Option (ℤ × String) :=
  (scorerCall st text (some keywords)).map (fun r =>
    let s1 := max r.2.1 r.2.2
    let s2 := max 0 (min 100 s1)
    (s2, if 50 ≤ s2 then "Relevant" else if 25 ≤ s2 then "Possibly Relevant" else "Unrelated"))

/-- Hit count a defined (non-raising) `fuzzy_match_keyword` call contributes,
used to phrase the specification-level double sum. -/
def hitsOrZero (text kw : String) : ℤ :=
  (fuzzy_match_keyword text kw (4/5)).getD 0

/-- Specification-level text-score increment: the double sum over taxonomy
groups and their synonym phrases of hit count times group weight, with a
missing `synonyms` key read as the empty list and a missing `score` key read
as weight 0. -/
def specTextDelta (tax : List (String × GroupEntry)) (text : String) : ℤ :=
  (tax.map (fun g =>
    ((g.2.synonyms.getD []).map (fun s => hitsOrZero text s * g.2.score.getD 0)).sum)).sum

/-- Specification-level AI-keyword-score increment: each group contributes
its weight times the multiplier exactly once when its synonyms fuzzily
intersect the chunked keyword list, and nothing otherwise. -/
def specAiDelta (tax : List (String × GroupEntry)) (kws : List String) (weight : ℤ) : ℤ :=
  (tax.map (fun g =>
    if fuzzy_match_two_sets_keywords (chunk_keywords kws) (g.2.synonyms.getD []) (17/20)
    then g.2.score.getD 0 * weight else 0)).sum

/-! Lemmas about the `SequenceMatcher` model. -/

theorem argmaxStep_of_lt (f : Nat → Nat → Nat) (best : Nat × Nat × Nat) (p : Nat × Nat)
    (h : best.2.2 < f p.1 p.2) : argmaxStep f best p = (p.1, p.2, f p.1 p.2) := by
  unfold argmaxStep
  rw [if_pos h]

theorem argmaxStep_of_ge (f : Nat → Nat → Nat) (best : Nat × Nat × Nat) (p : Nat × Nat)
    (h : ¬best.2.2 < f p.1 p.2) : argmaxStep f best p = best := by
  unfold argmaxStep
  rw [if_neg h]

theorem argmaxStep_snd_le (f : Nat → Nat → Nat) (best : Nat × Nat × Nat) (p : Nat × Nat) :
    best.2.2 ≤ (argmaxStep f best p).2.2 := by
  unfold argmaxStep
  split
  · next h => exact le_of_lt h
  · exact le_refl _

theorem argmaxRun_foldl_init_le (f : Nat → Nat → Nat) (pairs : List (Nat × Nat))
    (init : Nat × Nat × Nat) :
    init.2.2 ≤ (pairs.foldl (argmaxStep f) init).2.2 := by
  induction pairs generalizing init with
  | nil => simp
  | cons p ps ih =>
    rw [List.foldl_cons]
    exact le_trans (argmaxStep_snd_le f init p) (ih _)

theorem argmaxRun_foldl_le_of_mem (f : Nat → Nat → Nat) (pairs : List (Nat × Nat)) :
    ∀ (init : Nat × Nat × Nat) (p : Nat × Nat), p ∈ pairs →
      f p.1 p.2 ≤ (pairs.foldl (argmaxStep f) init).2.2 := by
  induction pairs with
  | nil => intro init p hp; cases hp
  | cons q qs ih =>
    intro init p hp
    rw [List.foldl_cons]
    rcases List.mem_cons.mp hp with rfl | hmem
    · refine le_trans ?_ (argmaxRun_foldl_init_le f qs (argmaxStep f init p))
      unfold argmaxStep
      split
      · exact le_refl _
      · next h => exact le_of_not_lt h
    · exact ih _ p hmem

theorem argmaxRun_le_of_mem (f : Nat → Nat → Nat) (pairs : List (Nat × Nat))
    (p : Nat × Nat) (hp : p ∈ pairs) :
    f p.1 p.2 ≤ (argmaxRun f pairs).2.2 :=
  argmaxRun_foldl_le_of_mem f pairs (0, 0, 0) p hp

theorem argmaxRun_foldl_cases (f : Nat → Nat → Nat) (pairs : List (Nat × Nat))
    (init : Nat × Nat × Nat) :
    pairs.foldl (argmaxStep f) init = init ∨
      ∃ p ∈ pairs, pairs.foldl (argmaxStep f) init = (p.1, p.2, f p.1 p.2) := by
  induction pairs using List.reverseRecOn with
  | nil => left; rfl
  | append_singleton l p ih =>
    rw [List.foldl_append, List.foldl_cons, List.foldl_nil]
    rcases ih with h | ⟨q, hq, h⟩ <;> rw [h] <;> unfold argmaxStep
    · by_cases hlt : init.2.2 < f p.1 p.2
      · right; exact ⟨p, by simp, by simp [hlt]⟩
      · left; simp [hlt]
    · by_cases hlt : f q.1 q.2 < f p.1 p.2
      · right; exact ⟨p, by simp, by simp [hlt]⟩
      · right; exact ⟨q, by simp [List.mem_append.mpr (Or.inl hq)], by simp [hlt]⟩

theorem argmaxRun_foldl_zero_or_pos (f : Nat → Nat → Nat) (l : List (Nat × Nat)) :
    ∀ init : Nat × Nat × Nat, (init = (0, 0, 0) ∨ 0 < init.2.2) →
      (l.foldl (argmaxStep f) init = (0, 0, 0) ∨ 0 < (l.foldl (argmaxStep f) init).2.2) := by
  induction l with
  | nil => intro init h; exact h
  | cons q qs ih =>
    intro init h
    rw [List.foldl_cons]
    apply ih
    unfold argmaxStep
    split
    · next hlt => right; dsimp only; omega
    · exact h

theorem argmaxRun_eq_zero_triple (f : Nat → Nat → Nat) (pairs : List (Nat × Nat))
    (h : (argmaxRun f pairs).2.2 = 0) : argmaxRun f pairs = (0, 0, 0) := by
  rcases argmaxRun_foldl_zero_or_pos f pairs (0, 0, 0) (Or.inl rfl) with hc | hc
  · exact hc
  · exfalso
    unfold argmaxRun at h
    omega

theorem argmaxRun_foldl_stable (f : Nat → Nat → Nat) (l : List (Nat × Nat))
    (init : Nat × Nat × Nat) (h : ∀ q ∈ l, f q.1 q.2 ≤ init.2.2) :
    l.foldl (argmaxStep f) init = init := by
  induction l with
  | nil => rfl
  | cons q qs ih =>
    rw [List.foldl_cons]
    rw [show argmaxStep f init q = init from by
      unfold argmaxStep; rw [if_neg (not_lt.mpr (h q (by simp)))]]
    exact ih (fun r hr => h r (by simp [hr]))

theorem argmaxRun_first (f : Nat → Nat → Nat) (l₁ l₂ : List (Nat × Nat)) (p : Nat × Nat)
    (hpos : 0 < f p.1 p.2)
    (h1 : ∀ q ∈ l₁, f q.1 q.2 < f p.1 p.2)
    (h2 : ∀ q ∈ l₂, f q.1 q.2 ≤ f p.1 p.2) :
    argmaxRun f (l₁ ++ p :: l₂) = (p.1, p.2, f p.1 p.2) := by
  unfold argmaxRun
  rw [List.foldl_append, List.foldl_cons]
  have hB : (l₁.foldl (argmaxStep f) (0, 0, 0)).2.2 < f p.1 p.2 := by
    rcases argmaxRun_foldl_cases f l₁ (0, 0, 0) with h | ⟨q, hq, h⟩
    · rw [h]; exact hpos
    · rw [h]; exact h1 q hq
  rw [argmaxStep_of_lt f _ p hB]
  exact argmaxRun_foldl_stable f l₂ _ h2

theorem find?_decomp {α : Type} (pred : α → Bool) :
    ∀ (l : List α) (x : α), l.find? pred = some x →
      pred x = true ∧ ∃ l₁ l₂, l = l₁ ++ x :: l₂ ∧ ∀ q ∈ l₁, pred q = false := by
  intro l
  induction l with
  | nil => intro x h; simp [List.find?] at h
  | cons y ys ih =>
    intro x h
    by_cases hy : pred y = true
    · rw [List.find?_cons_of_pos _ hy] at h
      obtain rfl := Option.some.inj h
      exact ⟨hy, [], ys, rfl, by simp⟩
    · have hy' : pred y = false := by
        cases hq : pred y
        · rfl
        · exact absurd hq hy
      rw [List.find?_cons_of_neg _ (by simp [hy'])] at h
      obtain ⟨hx, l₁, l₂, rfl, hl₁⟩ := ih x h
      refine ⟨hx, y :: l₁, l₂, rfl, ?_⟩
      intro q hq
      rcases List.mem_cons.mp hq with rfl | hq2
      · exact hy'
      · exact hl₁ q hq2

theorem find?_isSome_of_mem {α : Type} (pred : α → Bool) (l : List α) (x : α)
    (hx : x ∈ l) (hpx : pred x = true) : ∃ y, l.find? pred = some y :=
  Option.isSome_iff_exists.mp (List.find?_isSome.mpr ⟨x, hx, hpx⟩)

theorem allPairs_succ_left (n m : Nat) :
    allPairs (n + 1) m = allPairs n m ++ (List.range m).map (fun j => (n, j)) := by
  unfold allPairs
  rw [List.range_succ, List.flatMap_append]
  simp

theorem allPairs_pairwise (n m : Nat) :
    (allPairs n m).Pairwise
      (fun p q : Nat × Nat => p.1 < q.1 ∨ (p.1 = q.1 ∧ p.2 < q.2)) := by
  induction n with
  | zero => simp [allPairs]
  | succ k ih =>
    rw [allPairs_succ_left, List.pairwise_append]
    refine ⟨ih, ?_, ?_⟩
    · rw [List.pairwise_map]
      exact (List.pairwise_lt_range m).imp (fun h => Or.inr ⟨rfl, h⟩)
    · intro p hp q hq
      obtain ⟨j, hj, rfl⟩ := List.mem_map.mp hq
      have hp1 : p.1 < k := (mem_allPairs.mp (by rwa [show p = (p.1, p.2) from rfl] at hp)).1
      exact Or.inl hp1

theorem matchTotal_nil_left (b : List Char) : matchTotal [] b = 0 := by
  rw [matchTotal]
  simp [findLongestMatch, allPairs, argmaxRun]

theorem allPairs_zero_right (la : Nat) : allPairs la 0 = [] := by
  unfold allPairs
  induction List.range la with
  | nil => rfl
  | cons x xs ih => simp [ih]

theorem matchTotal_nil_right (a : List Char) : matchTotal a [] = 0 := by
  rw [matchTotal]
  simp [findLongestMatch, allPairs_zero_right, argmaxRun]

theorem commonRun_self (l : List Char) : commonRun l l = l.length := by
  induction l with
  | nil => simp [commonRun]
  | cons x xs ih => simp [commonRun, ih]

theorem findLongestMatch_snd_le (a b : List Char) :
    (findLongestMatch a b).2.2 ≤ a.length := by
  rcases argmaxRun_cases (fun i j => commonRun (a.drop i) (b.drop j))
      (allPairs a.length b.length) with hc | ⟨p, hp, hc⟩
  · rw [findLongestMatch, hc]; exact Nat.zero_le _
  · rw [findLongestMatch, hc]
    exact le_trans (commonRun_le_left _ _) (by simp)

theorem findLongestMatch_self (l : List Char) (h : l ≠ []) :
    findLongestMatch l l = (0, 0, l.length) := by
  have hpos : 0 < l.length := List.length_pos.mpr h
  have hmem : ((0, 0) : Nat × Nat) ∈ allPairs l.length l.length :=
    mem_allPairs.mpr ⟨hpos, hpos⟩
  have hge : l.length ≤ (findLongestMatch l l).2.2 := by
    have hle := argmaxRun_le_of_mem (fun i j => commonRun (l.drop i) (l.drop j))
      (allPairs l.length l.length) (0, 0) hmem
    simpa [findLongestMatch, commonRun_self] using hle
  rcases argmaxRun_cases (fun i j => commonRun (l.drop i) (l.drop j))
      (allPairs l.length l.length) with hc | ⟨p, hp, hc⟩
  · exfalso
    rw [findLongestMatch, hc] at hge
    dsimp only at hge
    omega
  · have hple := mem_allPairs.mp (by rwa [show p = (p.1, p.2) from rfl] at hp)
    rw [findLongestMatch, hc] at hge ⊢
    dsimp only at hge ⊢
    have h1 : commonRun (l.drop p.1) (l.drop p.2) ≤ l.length - p.1 := by
      simpa using commonRun_le_left (l.drop p.1) (l.drop p.2)
    have h2 : commonRun (l.drop p.1) (l.drop p.2) ≤ l.length - p.2 := by
      simpa using commonRun_le_right (l.drop p.1) (l.drop p.2)
    have hp1 : p.1 = 0 := by omega
    have hp2 : p.2 = 0 := by omega
    have hval : commonRun (l.drop p.1) (l.drop p.2) = l.length := by omega
    simp only [Prod.mk.injEq]
    exact ⟨hp1, hp2, hval⟩

theorem matchTotal_self (l : List Char) : matchTotal l l = l.length := by
  rcases eq_or_ne l [] with rfl | h
  · simpa using matchTotal_nil_left []
  · have hpos : 0 < l.length := List.length_pos.mpr h
    rw [matchTotal, findLongestMatch_self l h]
    dsimp only
    rw [dif_neg (by omega)]
    simp only [List.take_zero, Nat.zero_add, List.drop_length]
    rw [matchTotal_nil_left]
    omega

theorem cleanRun_no_popular (P : Char → Bool) (hP : ∀ c, P c = false) :
    ∀ (a b : List Char), cleanRun P a b = commonRun a b := by
  intro a
  induction a with
  | nil => intro b; cases b <;> rfl
  | cons x xs ih =>
    intro b
    cases b with
    | nil => rfl
    | cons y ys =>
      simp only [cleanRun, commonRun, hP y, and_true]
      split
      · rw [ih]
      · rfl

theorem cleanRun_spec (P : Char → Bool) :
    ∀ (u v : List Char) (t : Nat), t < cleanRun P u v →
      ∃ c, u[t]? = some c ∧ v[t]? = some c ∧ P c = false := by
  intro u
  induction u with
  | nil => intro v t h; cases v <;> simp [cleanRun] at h
  | cons x xs ih =>
    intro v t h
    cases v with
    | nil => simp [cleanRun] at h
    | cons y ys =>
      by_cases hc : x = y ∧ P y = false
      · simp only [cleanRun, if_pos hc] at h
        cases t with
        | zero => exact ⟨y, by simp [hc.1], by simp, hc.2⟩
        | succ t' =>
          obtain ⟨c, h1, h2, h3⟩ := ih ys t' (by omega)
          exact ⟨c, by simpa using h1, by simpa using h2, h3⟩
      · simp only [cleanRun, if_neg hc] at h
        omega

theorem cleanRun_ge (P : Char → Bool) :
    ∀ (u v : List Char) (k : Nat),
      (∀ t < k, ∃ c, u[t]? = some c ∧ v[t]? = some c ∧ P c = false) →
      k ≤ cleanRun P u v := by
  intro u
  induction u with
  | nil =>
    intro v k h
    cases k with
    | zero => exact Nat.zero_le _
    | succ k' =>
      obtain ⟨c, h1, -, -⟩ := h 0 (by omega)
      simp at h1
  | cons x xs ih =>
    intro v k h
    cases k with
    | zero => exact Nat.zero_le _
    | succ k' =>
      cases v with
      | nil =>
        obtain ⟨c, -, h2, -⟩ := h 0 (by omega)
        simp at h2
      | cons y ys =>
        obtain ⟨c, h1, h2, h3⟩ := h 0 (by omega)
        simp only [List.getElem?_cons_zero, Option.some.injEq] at h1 h2
        have hxy : x = y := by rw [h1, h2]
        have hPy : P y = false := by rw [h2]; exact h3
        have hrec := ih ys k' (fun t ht => by simpa using h (t + 1) (by omega))
        simp only [cleanRun, if_pos (And.intro hxy hPy)]
        omega

theorem commonRun_stop : ∀ (xs ys : List Char),
    commonRun (xs.drop (commonRun xs ys)) (ys.drop (commonRun xs ys)) = 0 := by
  intro xs
  induction xs with
  | nil => intro ys; simp [commonRun_nil_left]
  | cons x xs ih =>
    intro ys
    cases ys with
    | nil => simp [commonRun_nil_right]
    | cons y ys =>
      by_cases h : x = y
      · simp only [commonRun, if_pos h, List.drop_succ_cons]
        exact ih ys
      · simp [commonRun, if_neg h]

theorem findLongestMatchJ_no_popular (P : Char → Bool) (hP : ∀ c, P c = false)
    (a b : List Char) : findLongestMatchJ P a b = findLongestMatch a b := by
  unfold findLongestMatchJ findLongestMatch
  congr 1
  funext i j
  exact cleanRun_no_popular P hP _ _

theorem matchTotalJ_nil_left (P : Char → Bool) (b : List Char) :
    matchTotalJ P [] b = 0 := by
  rw [matchTotalJ]
  simp [extendedBlock, findLongestMatchJ, allPairs, argmaxRun, commonRun_nil_left]

theorem matchTotalJ_nil_right (P : Char → Bool) (a : List Char) :
    matchTotalJ P a [] = 0 := by
  rw [matchTotalJ]
  simp [extendedBlock, findLongestMatchJ, allPairs_zero_right, argmaxRun,
    commonRun_nil_right]

theorem extendedBlock_no_popular (P : Char → Bool) (hP : ∀ c, P c = false)
    (a b : List Char) : extendedBlock P a b = findLongestMatch a b := by
  have hf := findLongestMatchJ_no_popular P hP a b
  unfold extendedBlock
  rw [hf]
  rcases argmaxRun_cases (fun i j => commonRun (a.drop i) (b.drop j))
      (allPairs a.length b.length) with hc | ⟨p, hp, hc⟩
  · have hflm : findLongestMatch a b = (0, 0, 0) := by
      rw [findLongestMatch]; exact hc
    rw [hflm]
    dsimp only
    have hr : commonRun a b = 0 := by
      rcases eq_or_ne a [] with rfl | ha
      · exact commonRun_nil_left b
      · rcases eq_or_ne b [] with rfl | hb2
        · exact commonRun_nil_right a
        · have hpair : ((0, 0) : Nat × Nat) ∈ allPairs a.length b.length :=
            mem_allPairs.mpr ⟨List.length_pos.mpr ha, List.length_pos.mpr hb2⟩
          have hle := argmaxRun_le_of_mem (fun i j => commonRun (a.drop i) (b.drop j))
            (allPairs a.length b.length) (0, 0) hpair
          rw [hc] at hle
          simpa using hle
    simp [hr, commonRun_nil_left]
  · have hflm : findLongestMatch a b = (p.1, p.2, commonRun (a.drop p.1) (b.drop p.2)) := by
      rw [findLongestMatch]; exact hc
    have hmem := mem_allPairs.mp (by rwa [show p = (p.1, p.2) from rfl] at hp)
    have hmax : ∀ q ∈ allPairs a.length b.length,
        commonRun (a.drop q.1) (b.drop q.2) ≤ commonRun (a.drop p.1) (b.drop p.2) := by
      intro q hq
      have hle := argmaxRun_le_of_mem (fun i j => commonRun (a.drop i) (b.drop j))
        (allPairs a.length b.length) q hq
      rw [hc] at hle
      exact hle
    have hr : commonRun (a.drop (p.1 + commonRun (a.drop p.1) (b.drop p.2)))
        (b.drop (p.2 + commonRun (a.drop p.1) (b.drop p.2))) = 0 := by
      rw [(List.drop_drop (commonRun (a.drop p.1) (b.drop p.2)) p.1 a).symm,
        (List.drop_drop (commonRun (a.drop p.1) (b.drop p.2)) p.2 b).symm]
      exact commonRun_stop (a.drop p.1) (b.drop p.2)
    have hl : commonRun (a.take p.1).reverse (b.take p.2).reverse = 0 := by
      rcases Nat.eq_zero_or_pos p.1 with h1 | h1
      · rw [h1]
        simp [commonRun_nil_left]
      · rcases Nat.eq_zero_or_pos p.2 with h2 | h2
        · rw [h2]
          simp [commonRun_nil_right]
        · by_contra hne0
          have hposl : 0 < commonRun (a.take p.1).reverse (b.take p.2).reverse :=
            Nat.pos_of_ne_zero hne0
          obtain ⟨c, hh1, hh2⟩ : ∃ c, (a.take p.1).reverse.head? = some c ∧
              (b.take p.2).reverse.head? = some c := by
            cases hu : (a.take p.1).reverse with
            | nil => rw [hu, commonRun_nil_left] at hposl; omega
            | cons u us =>
              cases hv : (b.take p.2).reverse with
              | nil => rw [hu, hv, commonRun_nil_right] at hposl; omega
              | cons v vs =>
                rw [hu, hv] at hposl
                have huv : u = v := by
                  by_contra hneq
                  simp [commonRun, hneq] at hposl
                exact ⟨v, by simp [hu, huv], by simp [hv]⟩
          have ha1 : a[p.1 - 1]? = some c := by
            rw [List.head?_reverse, List.getLast?_eq_getElem?] at hh1
            have hlent : (a.take p.1).length = p.1 := by
              simp only [List.length_take]
              omega
            rw [hlent] at hh1
            have hlt1 : p.1 - 1 < p.1 := by omega
            rwa [List.getElem?_take, if_pos hlt1] at hh1
          have hb1 : b[p.2 - 1]? = some c := by
            rw [List.head?_reverse, List.getLast?_eq_getElem?] at hh2
            have hlent : (b.take p.2).length = p.2 := by
              simp only [List.length_take]
              omega
            rw [hlent] at hh2
            have hlt2 : p.2 - 1 < p.2 := by omega
            rwa [List.getElem?_take, if_pos hlt2] at hh2
          have hd1 : a.drop (p.1 - 1) = c :: a.drop p.1 := by
            have hlt : p.1 - 1 < a.length := by omega
            rw [List.drop_eq_getElem_cons hlt]
            congr 1
            · rw [List.getElem?_eq_getElem hlt] at ha1
              exact Option.some.inj ha1
            · congr 1
              omega
          have hd2 : b.drop (p.2 - 1) = c :: b.drop p.2 := by
            have hlt : p.2 - 1 < b.length := by omega
            rw [List.drop_eq_getElem_cons hlt]
            congr 1
            · rw [List.getElem?_eq_getElem hlt] at hb1
              exact Option.some.inj hb1
            · congr 1
              omega
          have hgrow : commonRun (a.drop (p.1 - 1)) (b.drop (p.2 - 1)) =
              commonRun (a.drop p.1) (b.drop p.2) + 1 := by
            rw [hd1, hd2]
            simp [commonRun]
          have hmem2 : ((p.1 - 1, p.2 - 1) : Nat × Nat) ∈ allPairs a.length b.length :=
            mem_allPairs.mpr ⟨by omega, by omega⟩
          have hle2 := hmax _ hmem2
          dsimp only at hle2
          omega
    rw [hflm]
    dsimp only
    rw [hl, hr]
    simp

theorem matchTotalJ_no_popular_aux (P : Char → Bool) (hP : ∀ c, P c = false) :
    ∀ (n : Nat) (a b : List Char), a.length ≤ n → matchTotalJ P a b = matchTotal a b := by
  intro n
  induction n with
  | zero =>
    intro a b ha
    have hnil : a = [] := List.eq_nil_of_length_eq_zero (by omega)
    subst hnil
    rw [matchTotalJ_nil_left, matchTotal_nil_left]
  | succ k ih =>
    intro a b ha
    rw [matchTotalJ, matchTotal, extendedBlock_no_popular P hP a b]
    by_cases h0 : (findLongestMatch a b).2.2 = 0
    · rw [dif_pos h0, dif_pos h0]
    · rw [dif_neg h0, dif_neg h0]
      have hb := findLongestMatch_bounds a b h0
      congr 1
      · congr 1
        apply ih
        simp only [List.length_take]
        omega
      · apply ih
        simp only [List.length_drop]
        omega

theorem matchTotalJ_no_popular (P : Char → Bool) (hP : ∀ c, P c = false)
    (a b : List Char) : matchTotalJ P a b = matchTotal a b :=
  matchTotalJ_no_popular_aux P hP a.length a b (le_refl _)

theorem findLongestMatchJ_self_diag (P : Char → Bool) (x : List Char) :
    findLongestMatchJ P x x = (0, 0, 0) ∨
      ∃ d, d < x.length ∧
        findLongestMatchJ P x x = (d, d, cleanRun P (x.drop d) (x.drop d)) := by
  by_cases h0 : (findLongestMatchJ P x x).2.2 = 0
  · left
    unfold findLongestMatchJ at h0 ⊢
    exact argmaxRun_eq_zero_triple _ _ h0
  · right
    rcases argmaxRun_cases (fun i j => cleanRun P (x.drop i) (x.drop j))
        (allPairs x.length x.length) with hc | ⟨p, hp, hc⟩
    · exfalso
      unfold findLongestMatchJ at h0
      rw [hc] at h0
      exact h0 rfl
    · have hmax : ∀ q ∈ allPairs x.length x.length,
          cleanRun P (x.drop q.1) (x.drop q.2) ≤ cleanRun P (x.drop p.1) (x.drop p.2) := by
        intro q hq
        have hle := argmaxRun_le_of_mem (fun i j => cleanRun P (x.drop i) (x.drop j))
          (allPairs x.length x.length) q hq
        rw [hc] at hle
        exact hle
      have hpos : 0 < cleanRun P (x.drop p.1) (x.drop p.2) := by
        unfold findLongestMatchJ at h0
        rw [hc] at h0
        dsimp only at h0
        omega
      have hmem : p.1 < x.length ∧ p.2 < x.length :=
        mem_allPairs.mp (by rwa [show p = (p.1, p.2) from rfl] at hp)
      have hdiag : cleanRun P (x.drop (min p.1 p.2)) (x.drop (min p.1 p.2)) =
          cleanRun P (x.drop p.1) (x.drop p.2) := by
        have hge : cleanRun P (x.drop p.1) (x.drop p.2) ≤
            cleanRun P (x.drop (min p.1 p.2)) (x.drop (min p.1 p.2)) := by
          apply cleanRun_ge
          intro t ht
          obtain ⟨c, h1, h2, h3⟩ := cleanRun_spec P (x.drop p.1) (x.drop p.2) t ht
          rw [List.getElem?_drop] at h1 h2
          rcases Nat.le_total p.1 p.2 with hle | hle
          · have hm : min p.1 p.2 = p.1 := Nat.min_eq_left hle
            exact ⟨c, by rw [List.getElem?_drop, hm]; exact h1,
              by rw [List.getElem?_drop, hm]; exact h1, h3⟩
          · have hm : min p.1 p.2 = p.2 := Nat.min_eq_right hle
            exact ⟨c, by rw [List.getElem?_drop, hm]; exact h2,
              by rw [List.getElem?_drop, hm]; exact h2, h3⟩
        have hle2 : cleanRun P (x.drop (min p.1 p.2)) (x.drop (min p.1 p.2)) ≤
            cleanRun P (x.drop p.1) (x.drop p.2) :=
          hmax (min p.1 p.2, min p.1 p.2) (mem_allPairs.mpr ⟨by omega, by omega⟩)
        omega
      obtain ⟨y, hy⟩ := find?_isSome_of_mem
        (fun q : Nat × Nat => decide (cleanRun P (x.drop q.1) (x.drop q.2) =
          cleanRun P (x.drop p.1) (x.drop p.2)))
        (allPairs x.length x.length) p hp (by simp)
      obtain ⟨hpy, l₁, l₂, hdec, hl₁⟩ := find?_decomp _ _ _ hy
      have hky : cleanRun P (x.drop y.1) (x.drop y.2) =
          cleanRun P (x.drop p.1) (x.drop p.2) := by simpa using hpy
      have hres : argmaxRun (fun i j => cleanRun P (x.drop i) (x.drop j))
          (allPairs x.length x.length) =
          (y.1, y.2, cleanRun P (x.drop y.1) (x.drop y.2)) := by
        rw [hdec]
        apply argmaxRun_first
        · dsimp only
          rw [hky]
          exact hpos
        · intro q hq
          have hq' : q ∈ allPairs x.length x.length := by
            rw [hdec]
            exact List.mem_append.mpr (Or.inl hq)
          have hle := hmax q hq'
          have hne : ¬cleanRun P (x.drop q.1) (x.drop q.2) =
              cleanRun P (x.drop p.1) (x.drop p.2) := by simpa using hl₁ q hq
          rw [hky]
          omega
        · intro q hq
          have hq' : q ∈ allPairs x.length x.length := by
            rw [hdec]
            exact List.mem_append.mpr (Or.inr (List.mem_cons.mpr (Or.inr hq)))
          rw [hky]
          exact hmax q hq'
      have heq := hc.symm.trans hres
      have hp1 : p.1 = y.1 := by
        have h' := congrArg (fun t : Nat × Nat × Nat => t.1) heq
        simpa using h'
      have hp2 : p.2 = y.2 := by
        have h' := congrArg (fun t : Nat × Nat × Nat => t.2.1) heq
        simpa using h'
      rw [hp1, hp2] at hdiag hmem hpos hky
      have hmmmem : ((min y.1 y.2, min y.1 y.2) : Nat × Nat) ∈
          allPairs x.length x.length := mem_allPairs.mpr ⟨by omega, by omega⟩
      rw [hdec] at hmmmem
      have hyy : y.1 = y.2 := by
        rcases List.mem_append.mp hmmmem with hin1 | hin2
        · exfalso
          have hf := hl₁ _ hin1
          simp only [decide_eq_false_iff_not] at hf
          rw [hp1, hp2] at hf
          exact hf hdiag
        · rcases List.mem_cons.mp hin2 with heq2 | hin3
          · have e1 : min y.1 y.2 = y.1 := by
              have h' := congrArg (fun t : Nat × Nat => t.1) heq2
              simpa using h'
            have e2 : min y.1 y.2 = y.2 := by
              have h' := congrArg (fun t : Nat × Nat => t.2) heq2
              simpa using h'
            omega
          · exfalso
            have hpw := allPairs_pairwise x.length x.length
            rw [hdec] at hpw
            have hcons := (List.pairwise_append.mp hpw).2.1
            have hrel := (List.pairwise_cons.mp hcons).1 _ hin3
            dsimp only at hrel
            omega
      refine ⟨y.1, by omega, ?_⟩
      unfold findLongestMatchJ
      rw [hres, ← hyy]

theorem extendedBlock_self (P : Char → Bool) (x : List Char) (h : x ≠ []) :
    extendedBlock P x x = (0, 0, x.length) := by
  have hlen : 0 < x.length := List.length_pos.mpr h
  unfold extendedBlock
  rcases findLongestMatchJ_self_diag P x with hc | ⟨d, hd, hc⟩
  · rw [hc]
    dsimp only
    simp [commonRun_nil_left, commonRun_self]
  · rw [hc]
    dsimp only
    have hkd := cleanRun_le_left P (x.drop d) (x.drop d)
    rw [List.length_drop] at hkd
    have h1 : commonRun (x.take d).reverse (x.take d).reverse = d := by
      rw [commonRun_self, List.length_reverse, List.length_take]
      omega
    have h2 : commonRun (x.drop (d + cleanRun P (x.drop d) (x.drop d)))
        (x.drop (d + cleanRun P (x.drop d) (x.drop d))) =
        x.length - (d + cleanRun P (x.drop d) (x.drop d)) := by
      rw [commonRun_self, List.length_drop]
    rw [h1, h2]
    simp only [Prod.mk.injEq]
    exact ⟨by omega, by omega, by omega⟩

theorem matchTotalJ_self (P : Char → Bool) (x : List Char) :
    matchTotalJ P x x = x.length := by
  rcases eq_or_ne x [] with rfl | h
  · simpa using matchTotalJ_nil_left P []
  · have hpos : 0 < x.length := List.length_pos.mpr h
    rw [matchTotalJ, extendedBlock_self P x h]
    dsimp only
    rw [dif_neg (by omega)]
    simp only [List.take_zero, Nat.zero_add, List.drop_length]
    rw [matchTotalJ_nil_left]
    omega

theorem popularChar_short (b : List Char) (hb : b.length < 200) :
    ∀ c, popularChar b c = false := by
  intro c
  unfold popularChar
  have hnot : ¬200 ≤ b.length := by omega
  simp [hnot]

theorem ratio_self (a : String) : ratio a a = 1 := by
  unfold ratio
  split
  · rfl
  · next h =>
    have hl : a.toList.length = a.length := rfl
    rw [matchTotalJ_self (popularChar a.toList) a.toList, hl]
    have hne : (a.length : ℚ) ≠ 0 := by
      have hz : a.length ≠ 0 := by omega
      exact_mod_cast hz
    field_simp
    ring

theorem commonRun_single_left (c : Char) (l : List Char) :
    commonRun [c] l = if l.head? = some c then 1 else 0 := by
  cases l with
  | nil => simp [commonRun]
  | cons d rest =>
    by_cases h : c = d
    · subst h
      simp [commonRun, commonRun_nil_left]
    · simp [commonRun, h, Ne.symm h]

theorem commonRun_single_right (c : Char) (l : List Char) :
    commonRun l [c] = if l.head? = some c then 1 else 0 := by
  cases l with
  | nil => simp [commonRun]
  | cons d rest =>
    by_cases h : d = c
    · subst h
      simp [commonRun, commonRun_nil_right]
    · simp [commonRun, h, Ne.symm h]

theorem exists_drop_head_of_mem {c : Char} {l : List Char} (h : c ∈ l) :
    ∃ j, j < l.length ∧ (l.drop j).head? = some c := by
  obtain ⟨i, hi, rfl⟩ := List.mem_iff_getElem.mp h
  exact ⟨i, hi, by rw [List.head?_drop]; exact List.getElem?_eq_getElem hi⟩

theorem not_mem_drop_head {c : Char} {l : List Char} (h : c ∉ l) (j : Nat) :
    (l.drop j).head? ≠ some c := by
  rw [List.head?_drop]
  intro hc
  obtain ⟨hl, rfl⟩ := List.getElem?_eq_some_iff.mp hc
  exact h (List.getElem_mem hl)

theorem matchTotal_single_left (c : Char) (l : List Char) :
    matchTotal [c] l = if c ∈ l then 1 else 0 := by
  by_cases hmem : c ∈ l
  · obtain ⟨j, hj, hdh⟩ := exists_drop_head_of_mem hmem
    have hpair : ((0, j) : Nat × Nat) ∈ allPairs ([c] : List Char).length l.length :=
      mem_allPairs.mpr ⟨Nat.zero_lt_one, hj⟩
    have hfval : commonRun ([c] : List Char) (l.drop j) = 1 := by
      rw [commonRun_single_left, if_pos hdh]
    have hge : 1 ≤ (findLongestMatch [c] l).2.2 := by
      have hle := argmaxRun_le_of_mem
        (fun i j => commonRun (([c] : List Char).drop i) (l.drop j))
        (allPairs ([c] : List Char).length l.length) (0, j) hpair
      dsimp only at hle
      simp only [List.drop_zero] at hle
      rw [hfval] at hle
      rw [findLongestMatch]
      exact hle
    have hub : (findLongestMatch [c] l).2.2 ≤ 1 := by
      simpa using findLongestMatch_snd_le [c] l
    rcases argmaxRun_cases (fun i j => commonRun (([c] : List Char).drop i) (l.drop j))
        (allPairs ([c] : List Char).length l.length) with hc2 | ⟨p, hp, hc2⟩
    · exfalso
      rw [findLongestMatch, hc2] at hge
      dsimp only at hge
      omega
    · have hflm : findLongestMatch [c] l =
          (p.1, p.2, commonRun (([c] : List Char).drop p.1) (l.drop p.2)) := by
        rw [findLongestMatch]; exact hc2
      have hple := mem_allPairs.mp (by rwa [show p = (p.1, p.2) from rfl] at hp)
      have hp1 : p.1 = 0 := by
        have h1 := hple.1
        simp only [List.length_singleton] at h1
        omega
      have hk1 : commonRun (([c] : List Char).drop p.1) (l.drop p.2) = 1 := by
        rw [hflm] at hge hub
        dsimp only at hge hub
        omega
      rw [matchTotal, hflm]
      dsimp only
      rw [hk1, hp1]
      rw [dif_neg one_ne_zero]
      simp [matchTotal_nil_left, hmem]
  · have h0 : (findLongestMatch [c] l).2.2 = 0 := by
      rcases argmaxRun_cases (fun i j => commonRun (([c] : List Char).drop i) (l.drop j))
          (allPairs ([c] : List Char).length l.length) with hc2 | ⟨p, hp, hc2⟩
      · rw [findLongestMatch, hc2]
      · have hple := mem_allPairs.mp (by rwa [show p = (p.1, p.2) from rfl] at hp)
        have hp1 : p.1 = 0 := by
          have h1 := hple.1
          simp only [List.length_singleton] at h1
          omega
        rw [findLongestMatch, hc2]
        dsimp only
        rw [hp1]
        simp only [List.drop_zero]
        rw [commonRun_single_left]
        exact if_neg (not_mem_drop_head hmem p.2)
    rw [matchTotal, dif_pos h0, if_neg hmem]

theorem matchTotal_single_right (c : Char) (l : List Char) :
    matchTotal l [c] = if c ∈ l then 1 else 0 := by
  by_cases hmem : c ∈ l
  · obtain ⟨j, hj, hdh⟩ := exists_drop_head_of_mem hmem
    have hpair : ((j, 0) : Nat × Nat) ∈ allPairs l.length ([c] : List Char).length :=
      mem_allPairs.mpr ⟨hj, Nat.zero_lt_one⟩
    have hfval : commonRun (l.drop j) ([c] : List Char) = 1 := by
      rw [commonRun_single_right, if_pos hdh]
    have hge : 1 ≤ (findLongestMatch l [c]).2.2 := by
      have hle := argmaxRun_le_of_mem
        (fun i j => commonRun (l.drop i) (([c] : List Char).drop j))
        (allPairs l.length ([c] : List Char).length) (j, 0) hpair
      dsimp only at hle
      simp only [List.drop_zero] at hle
      rw [hfval] at hle
      rw [findLongestMatch]
      exact hle
    have hub : (findLongestMatch l [c]).2.2 ≤ 1 := by
      rcases argmaxRun_cases (fun i j => commonRun (l.drop i) (([c] : List Char).drop j))
          (allPairs l.length ([c] : List Char).length) with hc2 | ⟨p, hp, hc2⟩
      · rw [findLongestMatch, hc2]; exact Nat.zero_le _
      · rw [findLongestMatch, hc2]
        dsimp only
        exact le_trans (commonRun_le_right _ _) (by simp [List.length_drop])
    rcases argmaxRun_cases (fun i j => commonRun (l.drop i) (([c] : List Char).drop j))
        (allPairs l.length ([c] : List Char).length) with hc2 | ⟨p, hp, hc2⟩
    · exfalso
      rw [findLongestMatch, hc2] at hge
      dsimp only at hge
      omega
    · have hflm : findLongestMatch l [c] =
          (p.1, p.2, commonRun (l.drop p.1) (([c] : List Char).drop p.2)) := by
        rw [findLongestMatch]; exact hc2
      have hple := mem_allPairs.mp (by rwa [show p = (p.1, p.2) from rfl] at hp)
      have hp2 : p.2 = 0 := by
        have h2 := hple.2
        simp only [List.length_singleton] at h2
        omega
      have hk1 : commonRun (l.drop p.1) (([c] : List Char).drop p.2) = 1 := by
        rw [hflm] at hge hub
        dsimp only at hge hub
        omega
      rw [matchTotal, hflm]
      dsimp only
      rw [hk1, hp2]
      rw [dif_neg one_ne_zero]
      simp [matchTotal_nil_right, hmem]
  · have h0 : (findLongestMatch l [c]).2.2 = 0 := by
      rcases argmaxRun_cases (fun i j => commonRun (l.drop i) (([c] : List Char).drop j))
          (allPairs l.length ([c] : List Char).length) with hc2 | ⟨p, hp, hc2⟩
      · rw [findLongestMatch, hc2]
      · have hple := mem_allPairs.mp (by rwa [show p = (p.1, p.2) from rfl] at hp)
        have hp2 : p.2 = 0 := by
          have h2 := hple.2
          simp only [List.length_singleton] at h2
          omega
        rw [findLongestMatch, hc2]
        dsimp only
        rw [hp2]
        simp only [List.drop_zero]
        rw [commonRun_single_right]
        exact if_neg (not_mem_drop_head hmem p.1)
    rw [matchTotal, dif_pos h0, if_neg hmem]

theorem matchTotal_comm_left_short (a b : List Char) (h : a.length ≤ 1) :
    matchTotal a b = matchTotal b a := by
  cases a with
  | nil => rw [matchTotal_nil_left, matchTotal_nil_right]
  | cons c rest =>
    have hrest : rest = [] := by
      cases rest with
      | nil => rfl
      | cons d ds => simp at h
    subst hrest
    rw [matchTotal_single_left, matchTotal_single_right]

theorem ratio_comm_of_matchTotalJ (a b : String)
    (h : matchTotalJ (popularChar b.toList) a.toList b.toList =
      matchTotalJ (popularChar a.toList) b.toList a.toList) :
    ratio a b = ratio b a := by
  unfold ratio
  rw [h, Nat.add_comm b.length a.length, add_comm (b.length : ℚ) (a.length : ℚ)]

/-! Characterisations of the matcher functions. -/

theorem singleScan_eq (kw : String) (θ : ℚ) (tw : List String) :
    singleScan kw θ tw = if ∃ w ∈ tw, θ ≤ ratio kw w then 1 else 0 := by
  induction tw with
  | nil => simp [singleScan]
  | cons w ws ih =>
    by_cases h : θ ≤ ratio kw w
    · simp [singleScan, h]
    · simp [singleScan, h, ih]

theorem multiScanAux_eq (kws tw : List String) (θ : ℚ) (hk : kws.length ≠ 0)
    (l : List Nat) :
    multiScanAux kws tw θ l =
      some (if ∃ i ∈ l, θ ≤ windowAvg kws ((tw.drop i).take kws.length) then 1 else 0) := by
  induction l with
  | nil => simp [multiScanAux]
  | cons i is ih =>
    rw [multiScanAux, if_neg hk]
    by_cases h : θ ≤ windowAvg kws ((tw.drop i).take kws.length)
    · simp [h]
    · simp [h, ih]

theorem fuzzy_match_keyword_single (text kw : String) (θ : ℚ)
    (h : (splitWs (preprocess kw)).length = 1) :
    fuzzy_match_keyword text kw θ =
      some (if ∃ w ∈ splitWs (preprocess text), θ ≤ ratio (preprocess kw) w
            then 1 else 0) := by
  unfold fuzzy_match_keyword
  rw [if_pos h, singleScan_eq]

theorem fuzzy_match_keyword_multi (text kw : String) (θ : ℚ)
    (h : 2 ≤ (splitWs (preprocess kw)).length) :
    fuzzy_match_keyword text kw θ =
      some (if ∃ i < (splitWs (preprocess text)).length + 1 - (splitWs (preprocess kw)).length,
              θ ≤ windowAvg (splitWs (preprocess kw))
                (((splitWs (preprocess text)).drop i).take (splitWs (preprocess kw)).length)
            then 1 else 0) := by
  unfold fuzzy_match_keyword
  rw [if_neg (by omega), multiScanAux_eq _ _ _ (by omega)]
  simp only [List.mem_range]

theorem fuzzy_match_keyword_zero_words (text kw : String) (θ : ℚ)
    (h : (splitWs (preprocess kw)).length = 0) :
    fuzzy_match_keyword text kw θ = none := by
  unfold fuzzy_match_keyword
  rw [if_neg (by omega)]
  have hn : (splitWs (preprocess text)).length + 1 - (splitWs (preprocess kw)).length =
      (splitWs (preprocess text)).length + 1 := by omega
  rw [hn]
  cases hr : List.range ((splitWs (preprocess text)).length + 1) with
  | nil => exact absurd hr (by simp [List.range_eq_nil])
  | cons i is => rw [multiScanAux, if_pos h]

/-! Lemmas about the scorer state transformers. -/

theorem textScoreSyn_some (text : String) (w acc : ℤ) (kw : String) (n : ℤ)
    (h : fuzzy_match_keyword text kw (4/5) = some n) :
    textScoreSyn text w acc kw = some (acc + n * w) := by
  unfold textScoreSyn
  rw [h]
  by_cases hn : n = 0
  · subst hn; simp
  · simp [hn]

theorem hitsOrZero_eq (text kw : String) (n : ℤ)
    (h : fuzzy_match_keyword text kw (4/5) = some n) : hitsOrZero text kw = n := by
  unfold hitsOrZero
  rw [h]
  rfl

theorem synList_foldlM (text : String) (w : ℤ) (syns : List String) :
    ∀ acc : ℤ, (∀ s ∈ syns, (fuzzy_match_keyword text s (4/5)).isSome) →
      syns.foldlM (textScoreSyn text w) acc =
        some (acc + (syns.map (fun s => hitsOrZero text s * w)).sum) := by
  induction syns with
  | nil => intro acc h; simp [List.foldlM_nil]
  | cons s ss ih =>
    intro acc h
    obtain ⟨n, hn⟩ := Option.isSome_iff_exists.mp (h s (by simp))
    rw [List.foldlM_cons, textScoreSyn_some text w acc s n hn]
    have hbind : (some (acc + n * w) >>= fun b => ss.foldlM (textScoreSyn text w) b) =
        ss.foldlM (textScoreSyn text w) (acc + n * w) := rfl
    rw [hbind, ih (acc + n * w) (fun t ht => h t (by simp [ht]))]
    simp only [List.map_cons, List.sum_cons]
    rw [hitsOrZero_eq text s n hn]
    simp [add_assoc]

theorem textScoreGroup_some (text : String) (acc : ℤ) (e : GroupEntry)
    (h : ∀ s ∈ e.synonyms.getD [], (fuzzy_match_keyword text s (4/5)).isSome) :
    textScoreGroup text acc e =
      some (acc +
        ((e.synonyms.getD []).map (fun s => hitsOrZero text s * e.score.getD 0)).sum) := by
  unfold textScoreGroup
  exact synList_foldlM text (e.score.getD 0) (e.synonyms.getD []) acc h

theorem taxList_foldlM (text : String) (tax : List (String × GroupEntry)) :
    ∀ acc : ℤ, (∀ g ∈ tax, ∀ s ∈ g.2.synonyms.getD [],
        (fuzzy_match_keyword text s (4/5)).isSome) →
      tax.foldlM (fun acc g => textScoreGroup text acc g.2) acc =
        some (acc + specTextDelta tax text) := by
  induction tax with
  | nil => intro acc h; simp [List.foldlM_nil, specTextDelta]
  | cons g gs ih =>
    intro acc h
    rw [List.foldlM_cons, textScoreGroup_some text acc g.2 (h g (by simp))]
    have hbind : (some (acc + ((g.2.synonyms.getD []).map
          (fun s => hitsOrZero text s * g.2.score.getD 0)).sum) >>=
          fun b => gs.foldlM (fun acc g => textScoreGroup text acc g.2) b) =
        gs.foldlM (fun acc g => textScoreGroup text acc g.2)
          (acc + ((g.2.synonyms.getD []).map
            (fun s => hitsOrZero text s * g.2.score.getD 0)).sum) := rfl
    rw [hbind, ih _ (fun q hq => h q (by simp [hq]))]
    unfold specTextDelta
    simp [add_assoc]

theorem textScoreRun_eq (st : DecarbonizationScorer) (text : String)
    (h : ∀ g ∈ st.target_keywords, ∀ s ∈ g.2.synonyms.getD [],
      (fuzzy_match_keyword text s (4/5)).isSome) :
    textScoreRun st text =
      some { st with
        text_score := st.text_score + specTextDelta st.target_keywords text } := by
  unfold textScoreRun
  rw [taxList_foldlM text st.target_keywords st.text_score h]
  rfl

theorem foldlM_some_exists {α β : Type} (f : β → α → Option β) (l : List α) :
    ∀ (acc r : β), l.foldlM f acc = some r → ∀ x ∈ l, ∃ a b, f a x = some b := by
  induction l with
  | nil => intro acc r h x hx; cases hx
  | cons y ys ih =>
    intro acc r h x hx
    rw [List.foldlM_cons] at h
    cases hf : f acc y with
    | none =>
      rw [hf] at h
      exact absurd h (by simp [Option.bind])
    | some a =>
      rw [hf] at h
      have hbind : (some a >>= fun b => ys.foldlM f b) = ys.foldlM f a := rfl
      rw [hbind] at h
      rcases List.mem_cons.mp hx with rfl | hmem
      · exact ⟨acc, a, hf⟩
      · exact ih a r h x hmem

theorem textScoreRun_wf (st : DecarbonizationScorer) (text : String)
    (s : DecarbonizationScorer) (h : textScoreRun st text = some s) :
    ∀ g ∈ st.target_keywords, ∀ syn ∈ g.2.synonyms.getD [],
      (fuzzy_match_keyword text syn (4/5)).isSome := by
  unfold textScoreRun at h
  obtain ⟨ts, hts, -⟩ := Option.map_eq_some'.mp h
  intro g hg syn hsyn
  obtain ⟨acc, r, hgr⟩ := foldlM_some_exists _ _ _ _ hts g hg
  unfold textScoreGroup at hgr
  obtain ⟨acc2, r2, hsr⟩ := foldlM_some_exists _ _ _ _ hgr syn hsyn
  unfold textScoreSyn at hsr
  obtain ⟨n, hn, -⟩ := Option.map_eq_some'.mp hsr
  simp [hn]

theorem aiFold_eq (kws : List String) (weight : ℤ) (tax : List (String × GroupEntry)) :
    ∀ acc : ℤ, tax.foldl (fun acc g => aiScoreGroup kws weight acc g.2) acc =
      acc + specAiDelta tax kws weight := by
  induction tax with
  | nil => intro acc; simp [specAiDelta]
  | cons g gs ih =>
    intro acc
    rw [List.foldl_cons, ih]
    unfold aiScoreGroup specAiDelta
    simp only [List.map_cons, List.sum_cons]
    by_cases hc : fuzzy_match_two_sets_keywords (chunk_keywords kws)
        (g.2.synonyms.getD []) (17/20) = true
    · simp [hc, add_assoc]
    · simp only [Bool.not_eq_true] at hc
      simp [hc, add_assoc]

theorem aiScoreRun_eq (st : DecarbonizationScorer) (kws : List String) (weight : ℤ) :
    aiScoreRun st kws weight =
      { st with ai_keywords_score :=
          st.ai_keywords_score + specAiDelta st.target_keywords kws weight } := by
  unfold aiScoreRun
  rw [aiFold_eq]

theorem splitWs_preprocess_empty : splitWs (preprocess "") = [] := rfl

theorem chunkWords_mem (x : String) : ∀ l : List String,
    x ∈ chunkWords l ↔ x ∈ l ∨ ∃ p ∈ l.zip l.tail, x = p.1 ++ " " ++ p.2 := by
  intro l
  induction l with
  | nil => simp [chunkWords]
  | cons w1 rest ih =>
    cases rest with
    | nil => simp [chunkWords]
    | cons w2 ws =>
      simp only [chunkWords, List.mem_cons, ih, List.tail_cons, List.zip_cons_cons,
        List.mem_cons]
      constructor
      · rintro (rfl | rfl | (h | ⟨p, hp, rfl⟩))
        · exact Or.inl (Or.inl rfl)
        · exact Or.inr ⟨(w1, w2), Or.inl rfl, rfl⟩
        · exact Or.inl (Or.inr h)
        · exact Or.inr ⟨p, Or.inr hp, rfl⟩
      · rintro ((rfl | h) | ⟨p, (rfl | hp), rfl⟩)
        · exact Or.inl rfl
        · exact Or.inr (Or.inr (Or.inl h))
        · exact Or.inr (Or.inl rfl)
        · exact Or.inr (Or.inr (Or.inr ⟨p, hp, rfl⟩))

/-- C1. The matching functions do not raise for a keyword that still has at
least one word after preprocessing: the result is then `some n` with
`n ∈ {0, 1}`, an empty text yields `some 0`, and a keyword with more words
than the text yields `some 0`; but for a keyword with no words (for example
the empty keyword) `fuzzy_match_keyword` divides by the zero word count and
raises `ZeroDivisionError` (`none`) for every text, so the original claim's
`count_matches(text, "") = 0` part is false. -/
theorem C1_matching_never_raises_amended (θ : ℚ) (text kw : String)
    (hk : (splitWs (preprocess kw)).length ≠ 0) :
    (∃ n : ℤ, fuzzy_match_keyword text kw θ = some n ∧ (n = 0 ∨ n = 1)) ∧
    fuzzy_match_keyword "" kw θ = some 0 ∧
    ((splitWs (preprocess text)).length < (splitWs (preprocess kw)).length →
      fuzzy_match_keyword text kw θ = some 0) ∧
    (∀ t : String, fuzzy_match_keyword t "" θ = none) := by
  refine ⟨?_, ?_, ?_, fun t => fuzzy_match_keyword_zero_words t "" θ rfl⟩
  · rcases Nat.lt_or_ge (splitWs (preprocess kw)).length 2 with hlt | hge
    · have h1 : (splitWs (preprocess kw)).length = 1 := by omega
      rw [fuzzy_match_keyword_single text kw θ h1]
      by_cases hex : ∃ w ∈ splitWs (preprocess text), θ ≤ ratio (preprocess kw) w
      · exact ⟨1, by rw [if_pos hex], Or.inr rfl⟩
      · exact ⟨0, by rw [if_neg hex], Or.inl rfl⟩
    · rw [fuzzy_match_keyword_multi text kw θ hge]
      by_cases hex : ∃ i < (splitWs (preprocess text)).length + 1 -
          (splitWs (preprocess kw)).length,
          θ ≤ windowAvg (splitWs (preprocess kw))
            (((splitWs (preprocess text)).drop i).take (splitWs (preprocess kw)).length)
      · exact ⟨1, by rw [if_pos hex], Or.inr rfl⟩
      · exact ⟨0, by rw [if_neg hex], Or.inl rfl⟩
  · rcases Nat.lt_or_ge (splitWs (preprocess kw)).length 2 with hlt | hge
    · have h1 : (splitWs (preprocess kw)).length = 1 := by omega
      rw [fuzzy_match_keyword_single "" kw θ h1, if_neg]
      rintro ⟨w, hw, -⟩
      rw [splitWs_preprocess_empty] at hw
      cases hw
    · rw [fuzzy_match_keyword_multi "" kw θ hge, if_neg]
      rintro ⟨i, hi, -⟩
      rw [splitWs_preprocess_empty] at hi
      simp only [List.length_nil] at hi
      omega
  · intro hlt
    rcases Nat.lt_or_ge (splitWs (preprocess kw)).length 2 with hl2 | hge
    · have h1 : (splitWs (preprocess kw)).length = 1 := by omega
      have htw : splitWs (preprocess text) = [] := by
        have : (splitWs (preprocess text)).length = 0 := by omega
        exact List.length_eq_zero.mp this
      rw [fuzzy_match_keyword_single text kw θ h1, if_neg]
      rintro ⟨w, hw, -⟩
      rw [htw] at hw
      cases hw
    · rw [fuzzy_match_keyword_multi text kw θ hge, if_neg]
      rintro ⟨i, hi, -⟩
      omega

theorem C1_matching_never_raises_witness :
    (splitWs (preprocess "ab")).length ≠ 0 ∧
    ((∃ n : ℤ, fuzzy_match_keyword "xyz uv" "ab" (4/5) = some n ∧ (n = 0 ∨ n = 1)) ∧
      fuzzy_match_keyword "" "ab" (4/5) = some 0 ∧
      ((splitWs (preprocess "xyz uv")).length < (splitWs (preprocess "ab")).length →
        fuzzy_match_keyword "xyz uv" "ab" (4/5) = some 0) ∧
      (∀ t : String, fuzzy_match_keyword t "" (4/5) = none)) :=
  ⟨by with_unfolding_all decide,
    C1_matching_never_raises_amended (4/5) "xyz uv" "ab" (by with_unfolding_all decide)⟩

/-- C1 counterexample. Contrary to the claim, an empty keyword does not give
a 0 result: `fuzzy_match_keyword` enters the multi-word branch with
`num_keywords = 0`, the window range `range(len(text_words) + 1)` is
non-empty, and `avg_ratio /= num_keywords` raises `ZeroDivisionError`
(modelled as `none`); in particular `count_matches("", "")` is not 0. -/
theorem C1_count_matches_empty_keyword_cex :
    fuzzy_match_keyword "some text" "" (4/5) = none ∧
    fuzzy_match_keyword "" "" (4/5) ≠ some 0 := by
  constructor
  · with_unfolding_all decide
  · with_unfolding_all decide

/-- C2. For every text and keyword, `fuzzy_match_keyword` follows the
two-regime contract: with a single-word keyword it returns 1 exactly when
some text word reaches the threshold (so a keyword identical to a text word
returns 1, for any threshold at most 1) and 0 otherwise; with a `k ≥ 2`-word
keyword it slides a window over the `len(text_words) - k + 1` start
positions and returns 1 exactly when some window's average per-position
similarity reaches the threshold; a keyword with more words than the text
has no windows and yields 0 hits. -/
theorem C2_fuzzy_match_two_regimes (θ : ℚ) (text kw : String) :
    ((splitWs (preprocess kw)).length = 1 →
      fuzzy_match_keyword text kw θ =
        some (if ∃ w ∈ splitWs (preprocess text), θ ≤ ratio (preprocess kw) w
              then 1 else 0)) ∧
    ((splitWs (preprocess kw)).length = 1 → θ ≤ 1 →
      preprocess kw ∈ splitWs (preprocess text) →
      fuzzy_match_keyword text kw θ = some 1) ∧
    (2 ≤ (splitWs (preprocess kw)).length →
      fuzzy_match_keyword text kw θ =
        some (if ∃ i < (splitWs (preprocess text)).length + 1 -
                  (splitWs (preprocess kw)).length,
                θ ≤ windowAvg (splitWs (preprocess kw))
                  (((splitWs (preprocess text)).drop i).take (splitWs (preprocess kw)).length)
              then 1 else 0)) ∧
    (2 ≤ (splitWs (preprocess kw)).length →
      (splitWs (preprocess text)).length < (splitWs (preprocess kw)).length →
      fuzzy_match_keyword text kw θ = some 0) := by
  refine ⟨fuzzy_match_keyword_single text kw θ, ?_, fuzzy_match_keyword_multi text kw θ, ?_⟩
  · intro h1 hθ hmem
    rw [fuzzy_match_keyword_single text kw θ h1, if_pos]
    exact ⟨preprocess kw, hmem, by rw [ratio_self]; exact hθ⟩
  · intro hge hlt
    rw [fuzzy_match_keyword_multi text kw θ hge, if_neg]
    rintro ⟨i, hi, -⟩
    omega

theorem C2_fuzzy_match_two_regimes_witness :
    2 ≤ (splitWs (preprocess "carbon emissions")).length ∧
    (splitWs (preprocess "short")).length < (splitWs (preprocess "carbon emissions")).length ∧
    fuzzy_match_keyword "short" "carbon emissions" (4/5) = some 0 :=
  ⟨by with_unfolding_all decide, by with_unfolding_all decide,
    (C2_fuzzy_match_two_regimes (4/5) "short" "carbon emissions").2.2.2
      (by with_unfolding_all decide) (by with_unfolding_all decide)⟩

/-- C7. `chunk_keywords` returns exactly the set whose members are, for each
input phrase split on whitespace, the individual words and the adjacent
word pairs joined by a single space; in particular on `{"solar energy"}` it
returns `{"solar", "energy", "solar energy"}`. -/
theorem C7_chunk_keywords_spec (keywords : List String) :
    (∀ x : String, x ∈ chunk_keywords keywords ↔
      ∃ kw ∈ keywords, x ∈ splitWs kw ∨
        ∃ p ∈ (splitWs kw).zip (splitWs kw).tail, x = p.1 ++ " " ++ p.2) ∧
    (chunk_keywords ["solar energy"]).toFinset = {"solar", "energy", "solar energy"} := by
  constructor
  · intro x
    unfold chunk_keywords
    simp only [List.mem_flatMap]
    constructor
    · rintro ⟨kw, hkw, hx⟩
      exact ⟨kw, hkw, (chunkWords_mem x _).mp hx⟩
    · rintro ⟨kw, hkw, hx⟩
      exact ⟨kw, hkw, (chunkWords_mem x _).mpr hx⟩
  · with_unfolding_all decide

/-- C8. `fuzzy_match_two_sets_keywords` lowercases both sets and returns
`true` exactly when some cross pair reaches the threshold; in particular
`{"x"}` vs `{"x"}` at the default threshold 0.85 is `true` and an empty
first set gives `false`. -/
theorem C8_any_match_spec (s1 s2 : List String) (θ : ℚ) :
    (fuzzy_match_two_sets_keywords s1 s2 θ = true ↔
      ∃ k1 ∈ s1, ∃ k2 ∈ s2, θ ≤ ratio (lowerStr k1) (lowerStr k2)) ∧
    fuzzy_match_two_sets_keywords ["x"] ["x"] (17/20) = true ∧
    fuzzy_match_two_sets_keywords [] ["x"] (17/20) = false := by
  refine ⟨?_, ?_, rfl⟩
  · unfold fuzzy_match_two_sets_keywords
    simp [List.any_eq_true, List.mem_map]
  · with_unfolding_all decide

/-- C9 counterexample. The similarity ratio of the modelled
`SequenceMatcher` is not symmetric: on the pair `("aba", "babba")` it is
`3/4` in one order and `1/2` in the other (matching CPython's `difflib`
values 0.75 and 0.5), so `similarity(a, b) = similarity(b, a)` fails. -/
theorem C9_similarity_not_symmetric_cex :
    ratio "aba" "babba" ≠ ratio "babba" "aba" := by
  with_unfolding_all decide

/-- C9 amended. The similarity ratio is symmetric whenever one of the two
strings has at most one character and both strings have fewer than 200
characters, so that difflib's default autojunk heuristic stays inactive
(the ratio is in particular reflexive for every string); it is not
symmetric for arbitrary pairs, because the greedy longest-block recursion
can pick different block decompositions in the two orders, and for strings
of 200 characters or more the autojunk popularity filter depends on the
second argument only. -/
theorem C9_similarity_symmetric_short_amended (a b : String)
    (h : a.length ≤ 1 ∨ b.length ≤ 1)
    (ha : a.length < 200) (hb : b.length < 200) :
    ratio a b = ratio b a := by
  have hPa : ∀ c, popularChar a.toList c = false := popularChar_short a.toList ha
  have hPb : ∀ c, popularChar b.toList c = false := popularChar_short b.toList hb
  apply ratio_comm_of_matchTotalJ
  rw [matchTotalJ_no_popular _ hPb, matchTotalJ_no_popular _ hPa]
  rcases h with h | h
  · exact matchTotal_comm_left_short a.toList b.toList h
  · exact (matchTotal_comm_left_short b.toList a.toList h).symm

theorem C9_similarity_symmetric_short_witness :
    ((("x" : String).length ≤ 1 ∨ ("yz" : String).length ≤ 1) ∧
      ("x" : String).length < 200 ∧ ("yz" : String).length < 200) ∧
    ratio "x" "yz" = ratio "yz" "x" :=
  ⟨⟨Or.inl (by decide), by decide, by decide⟩,
    C9_similarity_symmetric_short_amended "x" "yz" (Or.inl (by decide))
      (by decide) (by decide)⟩

/-- C3. When the scorer call returns the raw pair `(ts, ais)`, the
classifier's relevance score is the clamp of `max ts ais` into `[0, 100]`
(the larger of the two raw scores, not their sum), and the label is
`Relevant` for a clamped score at least 50, `Possibly Relevant` for one in
`[25, 50)`, and `Unrelated` below 25. -/
theorem C3_relevance_classification (st : DecarbonizationScorer) (text : String)
    (kws : List String) (st' : DecarbonizationScorer) (ts ais r : ℤ)
    (h : scorerCall st text (some kws) = some (st', ts, ais))
    (hr : r = max 0 (min 100 (max ts ais))) :
    ∃ lab : String, determine_relevance st text kws = some (r, lab) ∧
      0 ≤ r ∧ r ≤ 100 ∧
      (lab = "Relevant" ↔ 50 ≤ r) ∧
      (lab = "Possibly Relevant" ↔ 25 ≤ r ∧ r < 50) ∧
      (lab = "Unrelated" ↔ r < 25) := by
  have hb1 : 0 ≤ r := by omega
  have hb2 : r ≤ 100 := by omega
  refine ⟨if 50 ≤ r then "Relevant" else if 25 ≤ r then "Possibly Relevant"
    else "Unrelated", ?_, hb1, hb2, ?_, ?_, ?_⟩
  · unfold determine_relevance
    rw [h]
    subst hr
    rfl
  · by_cases h50 : 50 ≤ r
    · simp [h50]
    · by_cases h25 : 25 ≤ r
      · simp only [if_neg h50, if_pos h25]
        constructor
        · intro hx
          exact absurd hx (by decide)
        · intro hx
          exact absurd hx h50
      · simp only [if_neg h50, if_neg h25]
        constructor
        · intro hx
          exact absurd hx (by decide)
        · intro hx
          exact absurd hx h50
  · by_cases h50 : 50 ≤ r
    · simp only [if_pos h50]
      constructor
      · intro hx
        exact absurd hx (by decide)
      · intro hx
        omega
    · by_cases h25 : 25 ≤ r
      · simp only [if_neg h50, if_pos h25]
        constructor
        · intro hx
          omega
        · intro hx
          trivial
      · simp only [if_neg h50, if_neg h25]
        constructor
        · intro hx
          exact absurd hx (by decide)
        · intro hx
          omega
  · by_cases h50 : 50 ≤ r
    · simp only [if_pos h50]
      constructor
      · intro hx
        exact absurd hx (by decide)
      · intro hx
        omega
    · by_cases h25 : 25 ≤ r
      · simp only [if_neg h50, if_pos h25]
        constructor
        · intro hx
          exact absurd hx (by decide)
        · intro hx
          omega
      · simp only [if_neg h50, if_neg h25]
        constructor
        · intro hx
          omega
        · intro hx
          trivial

theorem C3_relevance_classification_witness :
    scorerCall ⟨[("emissions", ⟨some ["carbon"], some 40⟩)], 0, 0⟩ "carbon" (some []) =
      some (⟨[("emissions", ⟨some ["carbon"], some 40⟩)], 40, 0⟩, 40, 0) ∧
    (40 : ℤ) = max 0 (min 100 (max 40 0)) ∧
    ∃ lab : String,
      determine_relevance ⟨[("emissions", ⟨some ["carbon"], some 40⟩)], 0, 0⟩
          "carbon" [] = some (40, lab) ∧
      0 ≤ (40 : ℤ) ∧ (40 : ℤ) ≤ 100 ∧
      (lab = "Relevant" ↔ 50 ≤ (40 : ℤ)) ∧
      (lab = "Possibly Relevant" ↔ 25 ≤ (40 : ℤ) ∧ (40 : ℤ) < 50) ∧
      (lab = "Unrelated" ↔ (40 : ℤ) < 25) :=
  ⟨by with_unfolding_all decide, by decide,
    C3_relevance_classification ⟨[("emissions", ⟨some ["carbon"], some 40⟩)], 0, 0⟩
      "carbon" [] ⟨[("emissions", ⟨some ["carbon"], some 40⟩)], 40, 0⟩ 40 0 40
      (by with_unfolding_all decide) (by decide)⟩

/-- C4 counterexample. The claim quantifies over every taxonomy and says
`score_text` adds the double sum without raising; but on the taxonomy whose
single group has the synonym `""` (zero words after preprocessing),
`_text_score` calls `fuzzy_match_keyword(text, "")`, which raises
`ZeroDivisionError` (`none`), so no sum is added. -/
theorem C4_score_text_raises_cex :
    textScoreRun ⟨[("g", ⟨some [""], some 1⟩)], 0, 0⟩ "a" = none := by
  with_unfolding_all decide

/-- C4 amended. For every taxonomy whose synonym phrases all keep at least
one word after preprocessing, and for every text, one `_text_score` call
adds to `text_score` exactly the double sum over groups and synonyms of the
hit count times the group weight; an entry without a `synonyms` key
contributes nothing (it defaults to the empty list) and an entry without a
`score` key contributes nothing (its weight defaults to 0), and no
exception is raised. -/
theorem C4_text_score_sum_amended (st : DecarbonizationScorer) (text : String)
    (h : ∀ g ∈ st.target_keywords, ∀ s ∈ g.2.synonyms.getD [],
      (splitWs (preprocess s)).length ≠ 0) :
    textScoreRun st text =
      some { st with
        text_score := st.text_score + specTextDelta st.target_keywords text } := by
  apply textScoreRun_eq
  intro g hg s hs
  rcases Nat.lt_or_ge (splitWs (preprocess s)).length 2 with hlt | hge
  · have h1 : (splitWs (preprocess s)).length = 1 := by
      have := h g hg s hs
      omega
    rw [fuzzy_match_keyword_single text s (4/5) h1]
    rfl
  · rw [fuzzy_match_keyword_multi text s (4/5) hge]
    rfl

theorem C4_text_score_sum_witness :
    (∀ g ∈ ([("a", ⟨some ["carbon"], some 40⟩), ("b", ⟨none, some 10⟩),
        ("c", ⟨some ["carbon"], none⟩)] :
        List (String × GroupEntry)), ∀ s ∈ g.2.synonyms.getD [],
      (splitWs (preprocess s)).length ≠ 0) ∧
    textScoreRun ⟨[("a", ⟨some ["carbon"], some 40⟩), ("b", ⟨none, some 10⟩),
        ("c", ⟨some ["carbon"], none⟩)], 5, 7⟩ "carbon capture" =
      some ⟨[("a", ⟨some ["carbon"], some 40⟩), ("b", ⟨none, some 10⟩),
        ("c", ⟨some ["carbon"], none⟩)],
        5 + specTextDelta [("a", ⟨some ["carbon"], some 40⟩), ("b", ⟨none, some 10⟩),
          ("c", ⟨some ["carbon"], none⟩)] "carbon capture", 7⟩ :=
  ⟨by with_unfolding_all decide,
    C4_text_score_sum_amended ⟨[("a", ⟨some ["carbon"], some 40⟩),
      ("b", ⟨none, some 10⟩), ("c", ⟨some ["carbon"], none⟩)], 5, 7⟩
      "carbon capture" (by with_unfolding_all decide)⟩

/-- C5. `__call__` always runs the text scoring; when the keyword argument
is `None` or the empty list it skips the AI-keyword scoring and returns the
current accumulators, and when a non-empty list is supplied it chunks the
list and adds, for each group whose synonyms fuzzily intersect the chunked
keywords, the group weight times the multiplier 2 to `ai_keywords_score`
exactly once per group, leaving `text_score` unchanged by that phase. -/
theorem C5_evaluate_spec (st : DecarbonizationScorer) (text : String)
    (st1 : DecarbonizationScorer) (h : textScoreRun st text = some st1) :
    scorerCall st text none = some (st1, st1.text_score, st1.ai_keywords_score) ∧
    scorerCall st text (some []) = some (st1, st1.text_score, st1.ai_keywords_score) ∧
    ∀ l : List String, l ≠ [] →
      scorerCall st text (some l) =
        some (aiScoreRun st1 l 2, st1.text_score,
          st1.ai_keywords_score + specAiDelta st1.target_keywords l 2) ∧
      (aiScoreRun st1 l 2).text_score = st1.text_score ∧
      (aiScoreRun st1 l 2).ai_keywords_score =
        st1.ai_keywords_score + specAiDelta st1.target_keywords l 2 := by
  refine ⟨?_, ?_, ?_⟩
  · unfold scorerCall
    rw [h]
    rfl
  · unfold scorerCall
    rw [h]
    rfl
  · intro l hl
    have hemp : l.isEmpty = false := by
      cases l with
      | nil => exact absurd rfl hl
      | cons x xs => rfl
    have hrun := aiScoreRun_eq st1 l 2
    refine ⟨?_, ?_, ?_⟩
    · unfold scorerCall
      rw [h]
      simp only [Option.map_some', hemp, Bool.false_eq_true, if_false]
      rw [hrun]
    · rw [hrun]
    · rw [hrun]

theorem C5_evaluate_spec_witness :
    textScoreRun ⟨[("g", ⟨some ["solar"], some 10⟩)], 0, 0⟩ "solar" =
      some ⟨[("g", ⟨some ["solar"], some 10⟩)], 10, 0⟩ ∧
    (["sun"] : List String) ≠ [] ∧
    scorerCall ⟨[("g", ⟨some ["solar"], some 10⟩)], 0, 0⟩ "solar" (some ["sun"]) =
      some (aiScoreRun ⟨[("g", ⟨some ["solar"], some 10⟩)], 10, 0⟩ ["sun"] 2, 10,
        0 + specAiDelta [("g", ⟨some ["solar"], some 10⟩)] ["sun"] 2) :=
  ⟨by with_unfolding_all decide, by decide,
    ((C5_evaluate_spec ⟨[("g", ⟨some ["solar"], some 10⟩)], 0, 0⟩ "solar"
        ⟨[("g", ⟨some ["solar"], some 10⟩)], 10, 0⟩
        (by with_unfolding_all decide)).2.2 ["sun"] (by decide)).1⟩

/-- C6. Scores accumulate across calls on one scorer instance: on a freshly
constructed scorer (both accumulators 0), if one `_text_score` call with a
text succeeds and yields state `s1`, a second call with the same text also
succeeds and leaves `text_score` equal to exactly twice `s1`'s value. -/
theorem C6_score_text_twice_doubles (st : DecarbonizationScorer) (text : String)
    (s1 : DecarbonizationScorer)
    (hfresh : st.text_score = 0 ∧ st.ai_keywords_score = 0)
    (h : textScoreRun st text = some s1) :
    ∃ s2 : DecarbonizationScorer, textScoreRun s1 text = some s2 ∧
      s2.text_score = 2 * s1.text_score := by
  have hwf := textScoreRun_wf st text s1 h
  have he := textScoreRun_eq st text hwf
  rw [he] at h
  have hs1 := Option.some.inj h
  subst hs1
  have he1 := textScoreRun_eq
    { st with text_score := st.text_score + specTextDelta st.target_keywords text }
    text hwf
  refine ⟨_, he1, ?_⟩
  simp only
  rw [hfresh.1]
  ring

theorem C6_score_text_twice_doubles_witness :
    ((⟨[("g", ⟨some ["solar"], some 10⟩)], 0, 0⟩ :
        DecarbonizationScorer).text_score = 0 ∧
      (⟨[("g", ⟨some ["solar"], some 10⟩)], 0, 0⟩ :
        DecarbonizationScorer).ai_keywords_score = 0) ∧
    textScoreRun ⟨[("g", ⟨some ["solar"], some 10⟩)], 0, 0⟩ "solar panels" =
      some ⟨[("g", ⟨some ["solar"], some 10⟩)], 10, 0⟩ ∧
    ∃ s2 : DecarbonizationScorer,
      textScoreRun ⟨[("g", ⟨some ["solar"], some 10⟩)], 10, 0⟩ "solar panels" = some s2 ∧
      s2.text_score = 2 * (⟨[("g", ⟨some ["solar"], some 10⟩)], 10, 0⟩ :
        DecarbonizationScorer).text_score :=
  ⟨⟨rfl, rfl⟩, by with_unfolding_all decide,
    C6_score_text_twice_doubles ⟨[("g", ⟨some ["solar"], some 10⟩)], 0, 0⟩
      "solar panels" ⟨[("g", ⟨some ["solar"], some 10⟩)], 10, 0⟩ ⟨rfl, rfl⟩
      (by with_unfolding_all decide)⟩

/-- C10. The two score counters and the taxonomy are framed from each other:
a successful `_text_score` call leaves `ai_keywords_score` and the loaded
taxonomy unchanged, and an `_ai_keywords_score` call leaves `text_score`
and the loaded taxonomy unchanged. -/
theorem C10_frame_effects (st : DecarbonizationScorer) (text : String)
    (kws : List String) (weight : ℤ) :
    (∀ st' : DecarbonizationScorer, textScoreRun st text = some st' →
      st'.ai_keywords_score = st.ai_keywords_score ∧
      st'.target_keywords = st.target_keywords) ∧
    (aiScoreRun st kws weight).text_score = st.text_score ∧
    (aiScoreRun st kws weight).target_keywords = st.target_keywords := by
  refine ⟨?_, ?_, ?_⟩
  · intro st' h
    unfold textScoreRun at h
    obtain ⟨ts, -, rfl⟩ := Option.map_eq_some'.mp h
    exact ⟨rfl, rfl⟩
  · rw [aiScoreRun_eq]
  · rw [aiScoreRun_eq]

theorem C10_frame_effects_witness :
    textScoreRun ⟨[("g", ⟨some ["solar"], some 10⟩)], 0, 7⟩ "solar" =
      some ⟨[("g", ⟨some ["solar"], some 10⟩)], 10, 7⟩ ∧
    (⟨[("g", ⟨some ["solar"], some 10⟩)], 10, 7⟩ :
        DecarbonizationScorer).ai_keywords_score =
      (⟨[("g", ⟨some ["solar"], some 10⟩)], 0, 7⟩ :
        DecarbonizationScorer).ai_keywords_score ∧
    (⟨[("g", ⟨some ["solar"], some 10⟩)], 10, 7⟩ :
        DecarbonizationScorer).target_keywords =
      (⟨[("g", ⟨some ["solar"], some 10⟩)], 0, 7⟩ :
        DecarbonizationScorer).target_keywords :=
  ⟨by with_unfolding_all decide,
    (C10_frame_effects ⟨[("g", ⟨some ["solar"], some 10⟩)], 0, 7⟩ "solar" [] 2).1
      ⟨[("g", ⟨some ["solar"], some 10⟩)], 10, 7⟩ (by with_unfolding_all decide)⟩
